import Mathlib

/-!
# Verification of the looneygrep match-context-replace engine

A shallow embedding of `src/lib.rs` of the `looneygrep` repository.

Strings are modelled as `List Char` (one entry per Unicode scalar, as in
Rust's `char`).  Rust's `str::to_lowercase` is modelled per character by
`Char.toLower`; the multi-character Unicode foldings that Rust performs for
a handful of code points are outside the scope of the examples exercised
here, where folding is one-to-one and length preserving, so byte offsets of
the Rust code and character offsets of this model coincide.

The scanning loops of `highlight_all_matches` and `replace_all_matches`
are written with an explicit fuel argument (one unit per loop iteration);
`fuel = length + 1` always suffices because each iteration consumes at
least one character when the query is non-empty, which is proved below as
fuel-irrelevance lemmas.
-/

/-- `String` literal convenience: its list of characters. -/
def strL (s : String) : List Char := s.data

/-- The ESC character, first byte of both ANSI markers. -/
def escCh : Char := '\x1b'

/-- The start marker `"\x1b[31m"` (red) used by `highlight_all_matches`. -/
def startMarker : List Char := [escCh, '[', '3', '1', 'm']

/-- The end marker `"\x1b[0m"` used by `highlight_all_matches`. -/
def endMarker : List Char := [escCh, '[', '0', 'm']

/-- Rust `str::find` for a literal pattern: index of the first occurrence
of `needle` in `hay`, `none` if there is none.  An empty needle matches at
index 0, as in Rust. -/
def findSub (hay needle : List Char) : Option Nat :=
  match hay with
  | [] => if needle.isEmpty then some 0 else none
  | c :: t =>
    if List.isPrefixOf needle (c :: t) then some 0
    else (findSub t needle).map (· + 1)

/-- Rust `str::contains` for a literal pattern. -/
def containsSub (hay needle : List Char) : Bool := (findSub hay needle).isSome

/-- Per-character model of `str::to_lowercase` (see the header comment);
applied only when `ignore_case` is set, exactly as in the source. -/
def lowIC (ic : Bool) (l : List Char) : List Char :=
  if ic then l.map Char.toLower else l

/-- The match predicate of `search_contents` (lib.rs lines 184-190):
`line.to_lowercase().contains(&query.to_lowercase())` when `ignore_case`,
else `line.contains(&query)`. -/
def line_matches (q : List Char) (ic : Bool) (l : List Char) : Bool :=
  if ic then containsSub (lowIC true l) (lowIC true q) else containsSub l q

/-- The match sequence of `search_contents` (lib.rs lines 182-192):
`(line index, line text)` for every line containing the query. -/
def findMatches (q : List Char) (ic : Bool) (lines : List (List Char)) :
    List (Nat × List Char) :=
  (lines.enum).filter (fun p => line_matches q ic p.2)

/-- Loop body of `highlight_all_matches` (lib.rs lines 273-291), with fuel.
Each iteration finds the next occurrence of the (possibly case-folded)
query in the (possibly case-folded) remaining suffix, copies the original
text before it, wraps the original-cased matched span in the markers, and
continues after the match. -/
def hiLoopF (ic : Bool) (q : List Char) : Nat → List Char → List Char
  | 0, s => s
  | fuel + 1, s =>
    match findSub (lowIC ic s) (lowIC ic q) with
    | none => s
    | some p =>
      s.take p ++ startMarker ++ (s.drop p).take q.length ++ endMarker
        ++ hiLoopF ic q fuel ((s.drop p).drop q.length)

/-- The scanning loop of `highlight_all_matches` with sufficient fuel. -/
def hiLoop (ic : Bool) (q : List Char) (s : List Char) : List Char :=
  hiLoopF ic q (s.length + 1) s

/-- `highlight_all_matches` (lib.rs lines 269-292).  Empty queries return
the line unchanged. -/
def highlight_all_matches (line q : List Char) (ic : Bool) : List Char :=
  if q.isEmpty then line else hiLoop ic q line

/-- Loop body of the `ignore_case` branch of `replace_all_matches`
(lib.rs lines 296-310), with fuel: like the highlight loop but the matched
span is replaced by `rep`. -/
def icGoF (q rep : List Char) : Nat → List Char → List Char
  | 0, s => s
  | fuel + 1, s =>
    match findSub (lowIC true s) (lowIC true q) with
    | none => s
    | some p =>
      s.take p ++ rep ++ icGoF q rep fuel ((s.drop p).drop q.length)

/-- The `ignore_case` scanning loop of `replace_all_matches` with
sufficient fuel. -/
def icGo (q rep : List Char) (s : List Char) : List Char :=
  icGoF q rep (s.length + 1) s

/-- Loop of Rust `str::replace` for a non-empty pattern, with fuel:
replace the leftmost occurrence and continue after it. -/
def rustReplaceGoF (pat rep : List Char) : Nat → List Char → List Char
  | 0, s => s
  | fuel + 1, s =>
    match findSub s pat with
    | none => s
    | some p =>
      s.take p ++ rep ++ rustReplaceGoF pat rep fuel (s.drop (p + pat.length))

/-- Rust `str::replace` loop with sufficient fuel. -/
def rustReplaceGo (pat rep : List Char) (s : List Char) : List Char :=
  rustReplaceGoF pat rep (s.length + 1) s

/-- Rust `str::replace`: all non-overlapping leftmost occurrences of `pat`
replaced by `rep`.  For the empty pattern Rust matches at every character
boundary, producing `rep` interleaved between all characters. -/
def rustReplace (s pat rep : List Char) : List Char :=
  if pat.isEmpty then rep ++ (s.map (fun c => c :: rep)).flatten
  else rustReplaceGo pat rep s

/-- `replace_all_matches` (lib.rs lines 295-314): a hand-written
case-folding scan when `ignore_case`, Rust `str::replace` otherwise. -/
def replace_all_matches (line q rep : List Char) (ic : Bool) : List Char :=
  if ic then icGo q rep line else rustReplace line q rep

/-- Strip both ANSI markers from a decorated line: replace every
occurrence of the start marker, then of the end marker, by nothing
(Rust `str::replace` semantics). -/
def stripMarkers (s : List Char) : List Char :=
  rustReplace (rustReplace s startMarker []) endMarker []

/-- `escFree s` holds when `s` contains no ESC character, i.e. no byte of
either ANSI marker. -/
def escFree (s : List Char) : Bool := s.all (fun c => c != escCh)

/-- Split a string at `'\n'`, keeping empty pieces (`"a\nb" ↦ ["a","b"]`,
`"" ↦ [""]`). -/
def splitNL : List Char → List (List Char)
  | [] => [[]]
  | c :: t =>
    if c = '\n' then [] :: splitNL t
    else
      match splitNL t with
      | [] => [[c]]
      | h :: r => (c :: h) :: r

/-- Remove one trailing `'\r'`, used on pieces that were terminated by a
`'\n'` (Rust `str::lines` treats `"\r\n"` as one line ending). -/
def stripCR (l : List Char) : List Char :=
  match l.getLast? with
  | some '\r' => l.dropLast
  | _ => l

/-- Rust `str::lines`: split at `'\n'`, drop a final empty piece (a
trailing newline does not open a new line), and strip the `'\r'` of
`"\r\n"` endings; a final piece not terminated by `'\n'` keeps a trailing
`'\r'`, as in Rust. -/
def rustLines (s : List Char) : List (List Char) :=
  let ps := splitNL s
  if ps.getLast? = some [] then ps.dropLast.map stripCR
  else ps.dropLast.map stripCR ++ ps.getLast?.toList

/-- The `Config` struct (lib.rs lines 53-68). -/
structure Config where
  query : List Char
  file_path : List Char
  ignore_case : Bool
  replace : Bool
  url : Option (List Char)
  context : Nat
  search_all : Bool
deriving DecidableEq

/-- Accumulator of the argument loop of `Config::build`. -/
structure BuildAcc where
  file_path : List Char
  url : Option (List Char)
  ignore_case : Bool
  replace : Bool
  context : Nat
  search_all : Bool
deriving DecidableEq

/-- Rust `"…".parse::<usize>()` on the character list: optional leading
`'+'`, then at least one digit.  (Overflow, which Rust reports as an error
for huge inputs, is not modelled; `Nat` is unbounded.) -/
def parseUsize (s : List Char) : Option Nat :=
  let t := match s with
    | '+' :: r => r
    | _ => s
  if t.isEmpty then none
  else if t.all Char.isDigit then
    some (t.foldl (fun a c => a * 10 + (c.toNat - 48)) 0)
  else none

/-- The flag-processing loop of `Config::build` (lib.rs lines 99-113).
`--url` and `--context` consume the following argument (`--url` at the end
of the argument list resets `url` to `None`, `--context` with a
non-numeric or missing argument yields 0); any unrecognized argument
becomes the file path. -/
def buildLoop : List (List Char) → BuildAcc → BuildAcc
  | [], st => st
  | arg :: rest, st =>
    if arg = strL "--replace" then buildLoop rest { st with replace := true }
    else if arg = strL "--ignore-case" then buildLoop rest { st with ignore_case := true }
    else if arg = strL "--url" then
      match rest with
      | [] => { st with url := none }
      | u :: rest' => buildLoop rest' { st with url := some u }
    else if arg = strL "--context" then
      match rest with
      | [] => { st with context := 0 }
      | n :: rest' => buildLoop rest' { st with context := (parseUsize n).getD 0 }
    else if arg = strL "--all" then buildLoop rest { st with search_all := true }
    else buildLoop rest { st with file_path := arg }

/-- `Config::build` (lib.rs lines 86-118).  `argv` is the full argument
iterator including the program name (skipped first); `envIC` models
`env::var("IGNORE_CASE").is_ok()`. -/
def Config.build (envIC : Bool) (argv : List (List Char)) :
    Except (List Char) Config :=
  match argv.drop 1 with
  | [] => Except.error (strL "Didn't get a query string")
  | query :: rest =>
    let st := buildLoop rest ⟨[], none, envIC, false, 0, false⟩
    if !st.search_all && st.file_path.isEmpty && st.url.isNone then
      Except.error (strL "Didn't get a file path or URL")
    else
      Except.ok ⟨query, st.file_path, st.ignore_case, st.replace, st.url,
        st.context, st.search_all⟩

/-- One display output item of the preview loop of `search_contents`:
a context line (identified by its 0-based index), the `"---"` block
separator printed after each match's window, or the
`"Output truncated."` notice. -/
inductive OutEvent where
  | line : Nat → OutEvent
  | sep : OutEvent
  | trunc : OutEvent
deriving DecidableEq

/-- The render cap `max_lines = 1000` of `search_contents` (lib.rs 198). -/
def maxLines : Nat := 1000

/-- The raw context window of a match at line `i`:
`i.saturating_sub(context) .. min(i + 1 + context, lines.len())`
(lib.rs lines 201-202). -/
def windowOf (i ctx total : Nat) : List Nat :=
  List.range' (i - ctx) (min (i + 1 + ctx) total - (i - ctx))

/-- Inner loop over one window (lib.rs lines 203-214): emit each line not
yet printed and mark it printed. -/
def emitWindow : List Nat → List Bool → List OutEvent × List Bool
  | [], pr => ([], pr)
  | idx :: rest, pr =>
    if pr.getD idx false then emitWindow rest pr
    else
      let out := emitWindow rest (pr.set idx true)
      (OutEvent.line idx :: out.1, out.2)

/-- The preview loop of `search_contents` (lib.rs lines 200-221): for each
match emit its window's unprinted lines, then a separator; after the
`maxLines`-th match emit the truncation notice and stop. -/
def dispLoop (ctx total : Nat) : List Nat → List Bool → Nat → List OutEvent
  | [], _, _ => []
  | i :: rest, pr, lp =>
    let ew := emitWindow (windowOf i ctx total) pr
    ew.1 ++ [OutEvent.sep] ++
      (if maxLines ≤ lp + 1 then [OutEvent.trunc]
       else dispLoop ctx total rest ew.2 (lp + 1))

/-- The whole display pass: the preview loop started on the match line
indices with a fresh `printed` array (lib.rs lines 196-197). -/
def displayEvents (mis : List Nat) (ctx total : Nat) : List OutEvent :=
  dispLoop ctx total mis (List.replicate total false) 0

/-- The literal replacement string of the interactive loop (lib.rs 248). -/
def REPLACED : List Char := strL "<REPLACED>"

/-- Whitespace for `str::trim` (ASCII portion of Rust's
`char::is_whitespace`). -/
def wsp (c : Char) : Bool := c == ' ' || c == '\t' || c == '\n' || c == '\r'

/-- Rust `str::trim` on the character list. -/
def trimS (s : List Char) : List Char :=
  ((s.dropWhile wsp).reverse.dropWhile wsp).reverse

/-- State threaded through the interactive replace loop: the in-memory
lines, the `changed` flag, and the number of prompts read so far. -/
structure ReplState where
  lines : List (List Char)
  changed : Bool
  prompts : Nat
deriving DecidableEq

/-- Apply the replacement to line `i` of the state and mark it dirty
(lib.rs lines 248-249). -/
def applyRepl (q : List Char) (ic : Bool) (i : Nat) (st : ReplState) : ReplState :=
  { st with
    lines := st.lines.set i (replace_all_matches (st.lines.getD i []) q REPLACED ic),
    changed := true }

/-- The interactive replace loop of `search_contents` (lib.rs 229-250).
`oracle k` is the `k`-th line read from stdin.  Decisions after trimming:
`"y"` replace this match, `"all"` replace this and all remaining without
further prompts, `"n"` skip, `"quit"` stop, anything else skip. -/
def replLoop (q : List Char) (ic : Bool) (oracle : Nat → List Char) :
    List (Nat × List Char) → Bool → ReplState → ReplState
  | [], _, st => st
  | (i, _) :: rest, replaceAll, st =>
    if replaceAll then replLoop q ic oracle rest true (applyRepl q ic i st)
    else
      let d := trimS (oracle st.prompts)
      let st1 := { st with prompts := st.prompts + 1 }
      if d = strL "y" then replLoop q ic oracle rest false (applyRepl q ic i st1)
      else if d = strL "all" then replLoop q ic oracle rest true (applyRepl q ic i st1)
      else if d = strL "n" then replLoop q ic oracle rest false st1
      else if d = strL "quit" then st1
      else replLoop q ic oracle rest false st1

/-- Observable outcome of one `search_contents` session: the display
events, whether the unsupported-replacement warning was printed, how many
interactive prompts were read, and the content written back to the file
(`none` when nothing is written). -/
structure SessionResult where
  display : List OutEvent
  warning : Bool
  prompts : Nat
  written : Option (List Char)
deriving DecidableEq

/-- `search_contents` (lib.rs lines 177-266): split into lines, collect
the match sequence, run the display pass; if replacement was requested,
either warn (URL source) or run the interactive loop and, when dirty,
write the lines joined with `"\n"` back to the file. -/
def search_contents (contents : List Char) (c : Config)
    (oracle : Nat → List Char) : SessionResult :=
  let lines := rustLines contents
  let ms := findMatches c.query c.ignore_case lines
  let disp := displayEvents (ms.map Prod.fst) c.context lines.length
  if c.replace then
    if c.url.isSome then ⟨disp, true, 0, none⟩
    else
      let st := replLoop c.query c.ignore_case oracle ms false ⟨lines, false, 0⟩
      ⟨disp, false, st.prompts,
        if st.changed then some (List.intercalate ['\n'] st.lines) else none⟩
  else ⟨disp, false, 0, none⟩

/-- A separator event occurring strictly before a later line event
(i.e. a separator printed inside, not after, the run of displayed lines). -/
def hasLineEvent (evs : List OutEvent) : Bool :=
  evs.any (fun e => match e with | OutEvent.line _ => true | _ => false)

/-- Whether some separator is followed by a further displayed line. -/
def sepInside : List OutEvent → Bool
  | [] => false
  | OutEvent.sep :: rest => hasLineEvent rest || sepInside rest
  | _ :: rest => sepInside rest

/-- Whether an event is a displayed line. -/
def isLineEv : OutEvent → Bool
  | OutEvent.line _ => true
  | _ => false

/-! ## Basic facts about `findSub` -/

/-- The empty needle matches at index 0 in any haystack. -/
theorem findSub_nil_needle (hay : List Char) : findSub hay [] = some 0 := by
  cases hay <;> simp [findSub, List.isPrefixOf]

/-- A verified (boolean) prefix is no longer than the list. -/
theorem isPrefixOf_length_le :
    ∀ (l h : List Char), List.isPrefixOf l h = true → l.length ≤ h.length := by
  intro l
  induction l with
  | nil => intro h _; simp
  | cons c t ih =>
    intro h hp
    cases h with
    | nil => simp [List.isPrefixOf] at hp
    | cons d u =>
      simp only [List.isPrefixOf, Bool.and_eq_true, beq_iff_eq] at hp
      simpa using ih u hp.2

/-- An occurrence of a non-empty needle fits inside the haystack. -/
theorem findSub_some_bound :
    ∀ (hay needle : List Char) (p : Nat), needle ≠ [] →
      findSub hay needle = some p → p + needle.length ≤ hay.length := by
  intro hay
  induction hay with
  | nil =>
    intro needle p hne h
    simp [findSub, List.isEmpty_iff, hne] at h
  | cons c t ih =>
    intro needle p hne h
    by_cases hp : List.isPrefixOf needle (c :: t) = true
    · simp [findSub, hp] at h
      subst h
      simpa using isPrefixOf_length_le needle (c :: t) hp
    · simp [findSub, hp] at h
      obtain ⟨p', hp', rfl⟩ := h
      have := ih needle p' hne hp'
      simp only [List.length_cons]
      omega

/-- A non-empty needle does not occur in the empty haystack. -/
theorem findSub_nil_hay (needle : List Char) (h : needle ≠ []) :
    findSub [] needle = none := by
  simp [findSub, List.isEmpty_iff, h]

/-- Scanning past a character different from the needle's head. -/
theorem findSub_cons_of_ne (c d : Char) (pr t : List Char) (h : c ≠ d) :
    findSub (c :: t) (d :: pr) = (findSub t (d :: pr)).map (· + 1) := by
  have : List.isPrefixOf (d :: pr) (c :: t) = false := by
    simp [List.isPrefixOf]
    intro he
    exact absurd he.symm h
  simp [findSub, this]

/-- `lowIC` preserves length. -/
theorem lowIC_length (ic : Bool) (l : List Char) : (lowIC ic l).length = l.length := by
  cases ic <;> simp [lowIC]

/-- Membership characterisation of `escFree`. -/
theorem escFree_iff (s : List Char) :
    escFree s = true ↔ ∀ c ∈ s, c ≠ escCh := by
  simp [escFree, List.all_eq_true]

/-- `escFree` passes to `take`. -/
theorem escFree_take (s : List Char) (n : Nat) (h : escFree s = true) :
    escFree (s.take n) = true := by
  rw [escFree_iff] at h ⊢
  intro c hc
  exact h c (List.take_subset n s hc)

/-- `escFree` passes to `drop`. -/
theorem escFree_drop (s : List Char) (n : Nat) (h : escFree s = true) :
    escFree (s.drop n) = true := by
  rw [escFree_iff] at h ⊢
  intro c hc
  exact h c (List.drop_subset n s hc)

/-- `escFree` of an append. -/
theorem escFree_append (u v : List Char)
    (hu : escFree u = true) (hv : escFree v = true) :
    escFree (u ++ v) = true := by
  rw [escFree_iff] at hu hv ⊢
  intro c hc
  rcases List.mem_append.mp hc with h | h
  · exact hu c h
  · exact hv c h

/-- Searching for an ESC-headed pattern skips an ESC-free block. -/
theorem findSub_append_shift (pr : List Char) :
    ∀ (u t : List Char), escFree u = true →
      findSub (u ++ t) (escCh :: pr) =
        (findSub t (escCh :: pr)).map (· + u.length) := by
  intro u
  induction u with
  | nil =>
    intro t _
    cases h : findSub t (escCh :: pr) <;> simp [h]
  | cons c u' ih =>
    intro t hfree
    have hc : c ≠ escCh := by
      rw [escFree_iff] at hfree
      exact hfree c (by simp)
    rw [List.cons_append, findSub_cons_of_ne c escCh pr (u' ++ t) hc,
      ih t (by rw [escFree_iff] at hfree ⊢; intro x hx; exact hfree x (by simp [hx]))]
    cases h : findSub t (escCh :: pr) <;> simp [h, Nat.add_assoc, Nat.add_comm 1]

/-- An ESC-headed pattern does not occur in an ESC-free string. -/
theorem findSub_escFree_none (pr u : List Char) (h : escFree u = true) :
    findSub u (escCh :: pr) = none := by
  have := findSub_append_shift pr u [] h
  rw [List.append_nil] at this
  rw [this, findSub_nil_hay _ (by simp)]
  rfl

/-- A non-empty pattern occurs at index 0 of itself followed by anything. -/
theorem findSub_self_append (pat t : List Char) (h : pat ≠ []) :
    findSub (pat ++ t) pat = some 0 := by
  cases pat with
  | nil => exact absurd rfl h
  | cons c pr =>
    have hp : List.isPrefixOf (c :: pr) (c :: pr ++ t) = true := by
      induction pr generalizing c with
      | nil => simp [List.isPrefixOf]
      | cons d pr' ih => simp [List.isPrefixOf, ih d]
    simp [findSub, hp]

/-- The start marker does not occur at the start of an end marker: the
first occurrence in `endMarker ++ t` is 4 positions into `t`'s frame. -/
theorem findSub_em_sm (t : List Char) :
    findSub (endMarker ++ t) startMarker =
      (findSub t startMarker).map (· + 4) := by
  have h1 : ('[' : Char) ≠ escCh := by decide
  have h2 : ('0' : Char) ≠ escCh := by decide
  have h3 : ('m' : Char) ≠ escCh := by decide
  have hnp : List.isPrefixOf startMarker (escCh :: '[' :: '0' :: 'm' :: t) = false := by
    simp [startMarker, List.isPrefixOf]
  have e0 : findSub (escCh :: '[' :: '0' :: 'm' :: t) startMarker
      = (findSub ('[' :: '0' :: 'm' :: t) startMarker).map (· + 1) := by
    simp [findSub, hnp]
  have hEM : endMarker ++ t = escCh :: '[' :: '0' :: 'm' :: t := rfl
  rw [hEM, e0]
  rw [show startMarker = escCh :: ['[', '3', '1', 'm'] from rfl]
  rw [findSub_cons_of_ne _ _ _ _ h1, findSub_cons_of_ne _ _ _ _ h2,
    findSub_cons_of_ne _ _ _ _ h3]
  cases h : findSub t (escCh :: ['[', '3', '1', 'm']) <;> simp [h]

/-! ## Fuel irrelevance and one-step unfolding of the scanning loops -/

/-- `lowIC` of a non-empty query is non-empty. -/
theorem lowIC_ne_nil (ic : Bool) (q : List Char) (hq : q ≠ []) :
    lowIC ic q ≠ [] := by
  cases ic <;> simp [lowIC, hq]

/-- When the (case-folded) query occurs in the (case-folded) suffix, the
continuation suffix of one highlight iteration is strictly shorter. -/
theorem scan_step_shrinks (ic : Bool) (q s : List Char) (p : Nat) (hq : q ≠ [])
    (hf : findSub (lowIC ic s) (lowIC ic q) = some p) :
    ((s.drop p).drop q.length).length < s.length := by
  have hb := findSub_some_bound _ _ _ (lowIC_ne_nil ic q hq) hf
  rw [lowIC_length, lowIC_length] at hb
  have hqpos : 0 < q.length := List.length_pos.mpr hq
  simp only [List.length_drop]
  omega

/-- The highlight loop is independent of the fuel, given enough of it. -/
theorem hiLoopF_irrel (ic : Bool) (q : List Char) (hq : q ≠ []) :
    ∀ (f1 f2 : Nat) (s : List Char), s.length < f1 → s.length < f2 →
      hiLoopF ic q f1 s = hiLoopF ic q f2 s := by
  intro f1
  induction f1 with
  | zero => intro f2 s h1 _; omega
  | succ f1 ih =>
    intro f2 s h1 h2
    cases f2 with
    | zero => omega
    | succ f2 =>
      cases hf : findSub (lowIC ic s) (lowIC ic q) with
      | none => simp only [hiLoopF, hf]
      | some p =>
        simp only [hiLoopF, hf]
        have hs := scan_step_shrinks ic q s p hq hf
        rw [ih f2 _ (by omega) (by omega)]

/-- One-step unfolding of the highlight loop at full fuel. -/
theorem hiLoop_unfold (ic : Bool) (q : List Char) (hq : q ≠ []) (s : List Char) :
    hiLoop ic q s =
      match findSub (lowIC ic s) (lowIC ic q) with
      | none => s
      | some p =>
        s.take p ++ startMarker ++ (s.drop p).take q.length ++ endMarker
          ++ hiLoop ic q ((s.drop p).drop q.length) := by
  show hiLoopF ic q (s.length + 1) s = _
  cases hf : findSub (lowIC ic s) (lowIC ic q) with
  | none => simp only [hiLoopF, hf]
  | some p =>
    simp only [hiLoopF, hf]
    have hs := scan_step_shrinks ic q s p hq hf
    rw [hiLoopF_irrel ic q hq s.length (((s.drop p).drop q.length).length + 1) _
      hs (Nat.lt_succ_self _)]
    rfl

/-- The case-insensitive replace loop is independent of the fuel. -/
theorem icGoF_irrel (q rep : List Char) (hq : q ≠ []) :
    ∀ (f1 f2 : Nat) (s : List Char), s.length < f1 → s.length < f2 →
      icGoF q rep f1 s = icGoF q rep f2 s := by
  intro f1
  induction f1 with
  | zero => intro f2 s h1 _; omega
  | succ f1 ih =>
    intro f2 s h1 h2
    cases f2 with
    | zero => omega
    | succ f2 =>
      cases hf : findSub (lowIC true s) (lowIC true q) with
      | none => simp only [icGoF, hf]
      | some p =>
        simp only [icGoF, hf]
        have hs := scan_step_shrinks true q s p hq hf
        rw [ih f2 _ (by omega) (by omega)]

/-- One-step unfolding of the case-insensitive replace loop. -/
theorem icGo_unfold (q rep : List Char) (hq : q ≠ []) (s : List Char) :
    icGo q rep s =
      match findSub (lowIC true s) (lowIC true q) with
      | none => s
      | some p => s.take p ++ rep ++ icGo q rep ((s.drop p).drop q.length) := by
  show icGoF q rep (s.length + 1) s = _
  cases hf : findSub (lowIC true s) (lowIC true q) with
  | none => simp only [icGoF, hf]
  | some p =>
    simp only [icGoF, hf]
    have hs := scan_step_shrinks true q s p hq hf
    rw [icGoF_irrel q rep hq s.length (((s.drop p).drop q.length).length + 1) _
      hs (Nat.lt_succ_self _)]
    rfl

/-- The `str::replace` loop is independent of the fuel. -/
theorem rustReplaceGoF_irrel (pat rep : List Char) (hp : pat ≠ []) :
    ∀ (f1 f2 : Nat) (s : List Char), s.length < f1 → s.length < f2 →
      rustReplaceGoF pat rep f1 s = rustReplaceGoF pat rep f2 s := by
  intro f1
  induction f1 with
  | zero => intro f2 s h1 _; omega
  | succ f1 ih =>
    intro f2 s h1 h2
    cases f2 with
    | zero => omega
    | succ f2 =>
      cases hf : findSub s pat with
      | none => simp only [rustReplaceGoF, hf]
      | some p =>
        simp only [rustReplaceGoF, hf]
        have hb := findSub_some_bound _ _ _ hp hf
        have hppos : 0 < pat.length := List.length_pos.mpr hp
        have hs : (s.drop (p + pat.length)).length < s.length := by
          simp only [List.length_drop]; omega
        rw [ih f2 _ (by omega) (by omega)]

/-- One-step unfolding of the `str::replace` loop. -/
theorem rustReplaceGo_unfold (pat rep : List Char) (hp : pat ≠ []) (s : List Char) :
    rustReplaceGo pat rep s =
      match findSub s pat with
      | none => s
      | some p =>
        s.take p ++ rep ++ rustReplaceGo pat rep (s.drop (p + pat.length)) := by
  show rustReplaceGoF pat rep (s.length + 1) s = _
  cases hf : findSub s pat with
  | none => simp only [rustReplaceGoF, hf]
  | some p =>
    simp only [rustReplaceGoF, hf]
    have hb := findSub_some_bound _ _ _ hp hf
    have hppos : 0 < pat.length := List.length_pos.mpr hp
    have hs : (s.drop (p + pat.length)).length < s.length := by
      simp only [List.length_drop]; omega
    rw [rustReplaceGoF_irrel pat rep hp s.length ((s.drop (p + pat.length)).length + 1) _
      hs (Nat.lt_succ_self _)]
    rfl

/-! ## Constructor-shaped corollaries of the unfolding lemmas -/

/-- `rustReplaceGo` with no occurrence is the identity. -/
theorem rustReplaceGo_none (pat rep s : List Char) (hp : pat ≠ [])
    (hf : findSub s pat = none) : rustReplaceGo pat rep s = s := by
  rw [rustReplaceGo_unfold pat rep hp s, hf]

/-- `rustReplaceGo` consumes the leftmost occurrence. -/
theorem rustReplaceGo_some (pat rep s : List Char) (p : Nat) (hp : pat ≠ [])
    (hf : findSub s pat = some p) :
    rustReplaceGo pat rep s
      = s.take p ++ rep ++ rustReplaceGo pat rep (s.drop (p + pat.length)) := by
  rw [rustReplaceGo_unfold pat rep hp s, hf]

/-- The highlight loop with no occurrence is the identity. -/
theorem hiLoop_none (ic : Bool) (q s : List Char) (hq : q ≠ [])
    (hf : findSub (lowIC ic s) (lowIC ic q) = none) : hiLoop ic q s = s := by
  rw [hiLoop_unfold ic q hq s, hf]

/-- The highlight loop wraps the leftmost occurrence in the markers. -/
theorem hiLoop_some (ic : Bool) (q s : List Char) (p : Nat) (hq : q ≠ [])
    (hf : findSub (lowIC ic s) (lowIC ic q) = some p) :
    hiLoop ic q s
      = s.take p ++ startMarker ++ (s.drop p).take q.length ++ endMarker
          ++ hiLoop ic q ((s.drop p).drop q.length) := by
  rw [hiLoop_unfold ic q hq s, hf]

/-- The case-insensitive replace loop with no occurrence is the identity. -/
theorem icGo_none (q rep s : List Char) (hq : q ≠ [])
    (hf : findSub (lowIC true s) (lowIC true q) = none) : icGo q rep s = s := by
  rw [icGo_unfold q rep hq s, hf]

/-! ## Stripping the markers -/

/-- If the first occurrence of `pat` in `v ++ t` sits entirely inside `t`,
one `str::replace` pass commutes with prepending `v`. -/
theorem stripGo_shift (pat rep v t : List Char) (hp : pat ≠ [])
    (hshift : findSub (v ++ t) pat = (findSub t pat).map (· + v.length)) :
    rustReplaceGo pat rep (v ++ t) = v ++ rustReplaceGo pat rep t := by
  cases hf : findSub t pat with
  | none =>
    have : findSub (v ++ t) pat = none := by rw [hshift, hf]; rfl
    rw [rustReplaceGo_none pat rep _ hp this, rustReplaceGo_none pat rep t hp hf]
  | some p =>
    have hvt : findSub (v ++ t) pat = some (p + v.length) := by rw [hshift, hf]; rfl
    rw [rustReplaceGo_some pat rep _ _ hp hvt, rustReplaceGo_some pat rep t p hp hf]
    have htake : (v ++ t).take (p + v.length) = v ++ t.take p := by
      rw [List.take_append_eq_append_take, List.take_of_length_le (by omega)]
      congr 2
      omega
    have hdrop : (v ++ t).drop (p + v.length + pat.length) = t.drop (p + pat.length) := by
      rw [List.drop_append_eq_append_drop, List.drop_of_length_le (by omega)]
      simp only [List.nil_append]
      congr 1
      omega
    rw [htake, hdrop]
    simp [List.append_assoc]

/-- Stripping the start marker leaves an ESC-free string unchanged. -/
theorem stripSM_escFree (u : List Char) (h : escFree u = true) :
    rustReplaceGo startMarker [] u = u := by
  apply rustReplaceGo_none _ _ _ (by simp [startMarker])
  rw [show startMarker = escCh :: ['[', '3', '1', 'm'] from rfl]
  exact findSub_escFree_none _ u h

/-- Stripping the end marker leaves an ESC-free string unchanged. -/
theorem stripEM_escFree (u : List Char) (h : escFree u = true) :
    rustReplaceGo endMarker [] u = u := by
  apply rustReplaceGo_none _ _ _ (by simp [endMarker])
  rw [show endMarker = escCh :: ['[', '0', 'm'] from rfl]
  exact findSub_escFree_none _ u h

/-- Stripping consumes an inserted ESC-headed pattern sitting after an
ESC-free block, and continues on the rest. -/
theorem stripGo_emit (pr u rest : List Char) (hu : escFree u = true) :
    rustReplaceGo (escCh :: pr) [] (u ++ (escCh :: pr) ++ rest)
      = u ++ rustReplaceGo (escCh :: pr) [] rest := by
  have hp : (escCh :: pr) ≠ [] := by simp
  have hfirst : findSub (u ++ ((escCh :: pr) ++ rest)) (escCh :: pr) = some u.length := by
    rw [findSub_append_shift pr u _ hu, findSub_self_append _ _ hp]
    simp
  rw [List.append_assoc, rustReplaceGo_some _ _ _ _ hp hfirst]
  have htake : (u ++ ((escCh :: pr) ++ rest)).take u.length = u := by
    rw [List.take_append_eq_append_take, List.take_length, Nat.sub_self]
    simp
  have hdrop : (u ++ ((escCh :: pr) ++ rest)).drop (u.length + (escCh :: pr).length)
      = rest := by
    rw [List.drop_append_eq_append_drop, List.drop_of_length_le (by omega)]
    rw [List.nil_append, Nat.add_comm, Nat.add_sub_cancel]
    rw [List.drop_append_eq_append_drop, List.drop_length, Nat.sub_self]
    simp
  rw [htake, hdrop]
  simp

/-- Stripping the start marker consumes one inserted start marker. -/
theorem stripSM_emit (u rest : List Char) (hu : escFree u = true) :
    rustReplaceGo startMarker [] (u ++ startMarker ++ rest)
      = u ++ rustReplaceGo startMarker [] rest := by
  rw [show startMarker = escCh :: ['[', '3', '1', 'm'] from rfl]
  exact stripGo_emit _ u rest hu

/-- Stripping the end marker consumes one inserted end marker. -/
theorem stripEM_emit (u rest : List Char) (hu : escFree u = true) :
    rustReplaceGo endMarker [] (u ++ endMarker ++ rest)
      = u ++ rustReplaceGo endMarker [] rest := by
  rw [show endMarker = escCh :: ['[', '0', 'm'] from rfl]
  exact stripGo_emit _ u rest hu

/-- Stripping the start marker passes over an ESC-free block followed by
an end marker. -/
theorem stripSM_skip_em (m t : List Char) (hm : escFree m = true) :
    rustReplaceGo startMarker [] ((m ++ endMarker) ++ t)
      = (m ++ endMarker) ++ rustReplaceGo startMarker [] t := by
  apply stripGo_shift startMarker [] (m ++ endMarker) t (by simp [startMarker])
  rw [List.append_assoc]
  have h1 : findSub (m ++ (endMarker ++ t)) (escCh :: ['[', '3', '1', 'm'])
      = (findSub (endMarker ++ t) (escCh :: ['[', '3', '1', 'm'])).map (· + m.length) :=
    findSub_append_shift _ m (endMarker ++ t) hm
  rw [show startMarker = escCh :: ['[', '3', '1', 'm'] from rfl, h1,
    show (escCh :: ['[', '3', '1', 'm'] : List Char) = startMarker from rfl,
    findSub_em_sm t]
  cases h : findSub t startMarker with
  | none => simp
  | some p =>
    simp [endMarker]
    omega

/-- Round trip of the highlight loop: on an ESC-free line, stripping the
start markers and then the end markers from the decorated output yields
the original line (stated with a length bound for the induction). -/
theorem strip_hiLoop (ic : Bool) (q : List Char) (hq : q ≠ []) :
    ∀ (n : Nat) (s : List Char), s.length ≤ n → escFree s = true →
      rustReplaceGo endMarker [] (rustReplaceGo startMarker [] (hiLoop ic q s)) = s := by
  intro n
  induction n with
  | zero =>
    intro s hn hfree
    have hs : s = [] := List.length_eq_zero.mp (Nat.le_zero.mp hn)
    subst hs
    have hemp : lowIC ic ([] : List Char) = [] := by cases ic <;> simp [lowIC]
    have hf : findSub (lowIC ic ([] : List Char)) (lowIC ic q) = none := by
      rw [hemp]
      exact findSub_nil_hay _ (lowIC_ne_nil ic q hq)
    rw [hiLoop_none ic q [] hq hf, stripSM_escFree [] rfl, stripEM_escFree [] rfl]
  | succ n ih =>
    intro s hn hfree
    cases hf : findSub (lowIC ic s) (lowIC ic q) with
    | none =>
      rw [hiLoop_none ic q s hq hf, stripSM_escFree s hfree, stripEM_escFree s hfree]
    | some p =>
      have hs' := scan_step_shrinks ic q s p hq hf
      have hu : escFree (s.take p) = true := escFree_take s p hfree
      have hmfree : escFree ((s.drop p).take q.length) = true :=
        escFree_take _ _ (escFree_drop s p hfree)
      have hs'free : escFree ((s.drop p).drop q.length) = true :=
        escFree_drop _ _ (escFree_drop s p hfree)
      have hrec := ih ((s.drop p).drop q.length) (by omega) hs'free
      rw [hiLoop_some ic q s p hq hf]
      set u := s.take p with hu_def
      set m := (s.drop p).take q.length with hm_def
      set h' := hiLoop ic q ((s.drop p).drop q.length) with hh_def
      have hassoc : u ++ startMarker ++ m ++ endMarker ++ h'
          = u ++ startMarker ++ ((m ++ endMarker) ++ h') := by
        simp [List.append_assoc]
      rw [hassoc, stripSM_emit u ((m ++ endMarker) ++ h') hu,
        stripSM_skip_em m h' hmfree]
      have hassoc2 : u ++ ((m ++ endMarker) ++ rustReplaceGo startMarker [] h')
          = (u ++ m) ++ endMarker ++ rustReplaceGo startMarker [] h' := by
        simp [List.append_assoc]
      rw [hassoc2,
        stripEM_emit (u ++ m) (rustReplaceGo startMarker [] h')
          (escFree_append u m hu hmfree), hrec]
      rw [List.append_assoc, hm_def, hu_def, List.take_append_drop, List.take_append_drop]

/-! ## Replacement fixpoints -/

/-- Every line matches the empty query (the empty string is a substring of
everything), exactly as Rust's `contains("")`. -/
theorem line_matches_nil (ic : Bool) (l : List Char) : line_matches [] ic l = true := by
  cases ic <;> simp [line_matches, containsSub, lowIC, findSub_nil_needle]

/-- If the query does not occur in a line (mode-aware), `replace_all_matches`
leaves the line unchanged. -/
theorem replace_all_matches_of_no_match (l q rep : List Char) (ic : Bool)
    (h : line_matches q ic l = false) :
    replace_all_matches l q rep ic = l := by
  have hq : q ≠ [] := by
    intro he
    subst he
    rw [line_matches_nil] at h
    cases h
  cases ic with
  | true =>
    have hf : findSub (lowIC true l) (lowIC true q) = none := by
      cases hfs : findSub (lowIC true l) (lowIC true q) with
      | none => rfl
      | some p => simp [line_matches, containsSub, hfs] at h
    simp [replace_all_matches, icGo_none q rep l hq hf]
  | false =>
    have hf : findSub l q = none := by
      cases hfs : findSub l q with
      | none => rfl
      | some p => simp [line_matches, containsSub, hfs] at h
    simp [replace_all_matches, rustReplace, List.isEmpty_iff, hq,
      rustReplaceGo_none q rep l hq hf]

/-! ## The display pass -/

/-- The inner window loop emits only line events. -/
theorem emitWindow_line_events :
    ∀ (w : List Nat) (pr : List Bool) (e : OutEvent),
      e ∈ (emitWindow w pr).1 → ∃ k, e = OutEvent.line k := by
  intro w
  induction w with
  | nil => intro pr e he; simp [emitWindow] at he
  | cons idx rest ih =>
    intro pr e he
    by_cases hpr : pr.getD idx false
    · rw [emitWindow, if_pos hpr] at he
      exact ih _ e he
    · rw [emitWindow, if_neg hpr] at he
      rcases List.mem_cons.mp he with rfl | hm
      · exact ⟨idx, rfl⟩
      · exact ih _ e hm

/-- The inner window loop emits no separator. -/
theorem emitWindow_sep_count (w : List Nat) (pr : List Bool) :
    ((emitWindow w pr).1).count OutEvent.sep = 0 := by
  rw [List.count_eq_zero]
  intro hmem
  obtain ⟨k, hk⟩ := emitWindow_line_events w pr _ hmem
  cases hk

/-- The preview loop emits a non-empty event list for a non-empty match
list (at least the separator of the first match). -/
theorem dispLoop_ne_nil (ctx total : Nat) (i : Nat) (rest : List Nat)
    (pr : List Bool) (lp : Nat) : dispLoop ctx total (i :: rest) pr lp ≠ [] := by
  simp [dispLoop]

/-- Once the cap would be hit, matches past the first `maxLines - lp` are
never examined by the preview loop. -/
theorem dispLoop_take (ctx total : Nat) :
    ∀ (ms : List Nat) (pr : List Bool) (lp : Nat), lp < maxLines →
      dispLoop ctx total ms pr lp
        = dispLoop ctx total (ms.take (maxLines - lp)) pr lp := by
  intro ms
  induction ms with
  | nil => intro pr lp _; simp
  | cons i rest ih =>
    intro pr lp hlp
    have h1 : maxLines - lp = (maxLines - (lp + 1)) + 1 := by omega
    rw [h1, List.take_succ_cons]
    by_cases hc : maxLines ≤ lp + 1
    · have h0 : maxLines - (lp + 1) = 0 := by omega
      rw [h0]
      simp [dispLoop, hc]
    · simp only [dispLoop, if_neg hc]
      rw [ih _ (lp + 1) (by omega)]

/-- The preview loop emits one separator per match considered: exactly
`min` of the number of matches and the remaining block budget. -/
theorem dispLoop_sep_count (ctx total : Nat) :
    ∀ (ms : List Nat) (pr : List Bool) (lp : Nat), lp < maxLines →
      (dispLoop ctx total ms pr lp).count OutEvent.sep
        = min ms.length (maxLines - lp) := by
  intro ms
  induction ms with
  | nil => intro pr lp _; simp [dispLoop]
  | cons i rest ih =>
    intro pr lp hlp
    by_cases hc : maxLines ≤ lp + 1
    · simp only [dispLoop, if_pos hc, List.count_append, emitWindow_sep_count]
      simp [List.count_cons]
      omega
    · simp only [dispLoop, if_neg hc, List.count_append, emitWindow_sep_count]
      rw [ih _ (lp + 1) (by omega)]
      simp [List.count_cons]
      omega

/-- When at least `maxLines - lp` matches remain, the preview loop's final
event is the truncation notice. -/
theorem dispLoop_getLast (ctx total : Nat) :
    ∀ (ms : List Nat) (pr : List Bool) (lp : Nat), lp < maxLines →
      maxLines ≤ lp + ms.length →
      (dispLoop ctx total ms pr lp).getLast? = some OutEvent.trunc := by
  intro ms
  induction ms with
  | nil =>
    intro pr lp h1 h2
    simp only [List.length_nil] at h2
    omega
  | cons i rest ih =>
    intro pr lp hlp hcap
    by_cases hc : maxLines ≤ lp + 1
    · simp only [dispLoop, if_pos hc]
      rw [List.getLast?_append_of_ne_nil _ (by simp)]
      rfl
    · simp only [dispLoop, if_neg hc]
      cases rest with
      | nil =>
        simp only [List.length_cons, List.length_nil] at hcap
        omega
      | cons j r =>
        rw [List.getLast?_append_of_ne_nil _ (dispLoop_ne_nil ctx total j r _ _)]
        apply ih _ (lp + 1) (by omega)
        simp only [List.length_cons] at hcap ⊢
        omega

/-! ## The interactive replace loop -/

/-- If the operator never answers `all` or `quit`, the replace loop reads
one prompt per match: it iterates the entire match sequence. -/
theorem replLoop_prompts (q : List Char) (ic : Bool) (oracle : Nat → List Char)
    (hor : ∀ k, trimS (oracle k) ≠ strL "all" ∧ trimS (oracle k) ≠ strL "quit") :
    ∀ (ms : List (Nat × List Char)) (st : ReplState),
      (replLoop q ic oracle ms false st).prompts = st.prompts + ms.length := by
  intro ms
  induction ms with
  | nil => intro st; simp [replLoop]
  | cons hd rest ih =>
    intro st
    obtain ⟨i, l⟩ := hd
    have hall := (hor st.prompts).1
    have hquit := (hor st.prompts).2
    by_cases hy : trimS (oracle st.prompts) = strL "y"
    · simp only [replLoop]
      simp only [Bool.false_eq_true, if_false]
      rw [if_pos hy, ih]
      simp only [applyRepl, List.length_cons]
      omega
    · by_cases hn : trimS (oracle st.prompts) = strL "n"
      · simp only [replLoop]
        simp only [Bool.false_eq_true, if_false]
        rw [if_neg hy, if_neg hall, if_pos hn, ih]
        simp only [List.length_cons]
        omega
      · simp only [replLoop]
        simp only [Bool.false_eq_true, if_false]
        rw [if_neg hy, if_neg hall, if_neg hn, if_neg hquit, ih]
        simp only [List.length_cons]
        omega

/-! ## Claim theorems -/

/-- `stripMarkers` in terms of the non-empty-pattern replace loop. -/
theorem stripMarkers_eq (s : List Char) :
    stripMarkers s = rustReplaceGo endMarker [] (rustReplaceGo startMarker [] s) := by
  rw [stripMarkers, rustReplace, rustReplace]
  simp [startMarker, endMarker]

/-- C1 counterexample: the claim quantifies over every line, but a line
that itself contains an end-marker byte sequence loses it in the round
trip: for `L = "a\x1b[0mb"` and the non-empty query `"a"`, stripping the
markers from the highlighted line yields `"ab"`, not `L`. -/
theorem C1_counterexample :
    strL "a" ≠ [] ∧
      stripMarkers (highlight_all_matches (strL "a\x1b[0mb") (strL "a") false)
        ≠ strL "a\x1b[0mb" := by decide

/-- C1 (amended): for every line without an ESC character and every
non-empty query, under either case mode, stripping the start and end
marker sequences from `highlight_all_matches`'s output reproduces the
line exactly. -/
theorem C1_theorem (L Q : List Char) (ic : Bool) (hQ : Q ≠ [])
    (hfree : escFree L = true) :
    stripMarkers (highlight_all_matches L Q ic) = L := by
  have hQe : Q.isEmpty = false := by simp [List.isEmpty_iff, hQ]
  have hunf : highlight_all_matches L Q ic = hiLoop ic Q L := by
    simp [highlight_all_matches, hQe]
  rw [hunf, stripMarkers_eq]
  exact strip_hiLoop ic Q hQ L.length L le_rfl hfree

/-- C1 witness: a concrete ESC-free line and non-empty query for which
the round trip holds. -/
theorem C1_witness :
    strL "bar" ≠ [] ∧ escFree (strL "foo bar") = true ∧
      stripMarkers (highlight_all_matches (strL "foo bar") (strL "bar") false)
        = strL "foo bar" :=
  ⟨by decide, by decide,
    C1_theorem (strL "foo bar") (strL "bar") false (by decide) (by decide)⟩

/-- C2 counterexample: with the empty query, the match scan does NOT
report an empty match sequence — `"a".contains("")` is true in Rust, so
the single line is reported as a match. -/
theorem C2_counterexample :
    findMatches [] false [strL "a"] = [(0, strL "a")] ∧
      findMatches [] false [strL "a"] ≠ [] := by decide

/-- C2 (amended): for the empty query the highlighter does return every
line unchanged, but the match scan reports EVERY line as matching (the
empty string is a substring of every line), not none. -/
theorem C2_theorem (ic : Bool) (lines : List (List Char)) (l : List Char) :
    findMatches [] ic lines = lines.enum ∧ highlight_all_matches l [] ic = l := by
  constructor
  · rw [findMatches]
    apply List.filter_eq_self.mpr
    intro a _
    exact line_matches_nil ic a.2
  · simp [highlight_all_matches]

/-- C3 counterexample: for matches at lines 1 and 3 with radius 1 over 5
lines, the code emits a `"---"` separator after EVERY match's window, so a
separator appears between line 2 and line 3, inside the merged block. -/
theorem C3_counterexample :
    sepInside (displayEvents [1, 3] 1 5) = true ∧
      displayEvents [1, 3] 1 5
        ≠ [OutEvent.line 0, OutEvent.line 1, OutEvent.line 2,
           OutEvent.line 3, OutEvent.line 4, OutEvent.sep] := by decide

/-- C3 (amended): a separator is emitted after every match's window, even
between overlapping or adjacent windows; the `printed` markers do
deduplicate lines, so for matches `{1,3}` with radius 1 over 5 lines the
output shows each of lines 0-4 exactly once, but with a separator after
each of the two windows (in particular one inside the merged run). -/
theorem C3_theorem :
    displayEvents [1, 3] 1 5
      = [OutEvent.line 0, OutEvent.line 1, OutEvent.line 2, OutEvent.sep,
         OutEvent.line 3, OutEvent.line 4, OutEvent.sep]
    ∧ (displayEvents [1, 3] 1 5).filter isLineEv
        = [OutEvent.line 0, OutEvent.line 1, OutEvent.line 2,
           OutEvent.line 3, OutEvent.line 4]
    ∧ ((displayEvents [1, 3] 1 5).filter isLineEv).Nodup := by decide

/-- C5 counterexample: `L = "aab"`, `Q = "ab"`, `R = "b"`.  `R` does not
contain `Q` in either case mode, yet substitution is not idempotent: the
first pass yields `"ab"` (a fresh occurrence spanning the boundary), and
the second pass rewrites it to `"b"`. -/
theorem C5_counterexample :
    containsSub (strL "b") (strL "ab") = false
    ∧ replace_all_matches (replace_all_matches (strL "aab") (strL "ab") (strL "b") false)
        (strL "ab") (strL "b") false
      ≠ replace_all_matches (strL "aab") (strL "ab") (strL "b") false
    ∧ containsSub (lowIC true (strL "b")) (lowIC true (strL "ab")) = false
    ∧ replace_all_matches (replace_all_matches (strL "aab") (strL "ab") (strL "b") true)
        (strL "ab") (strL "b") true
      ≠ replace_all_matches (strL "aab") (strL "ab") (strL "b") true := by decide

/-- C5 (amended): substitution is idempotent precisely when the first
pass's output contains no residual occurrence of the query under the
active case mode; the spec's hypothesis that the replacement not contain
the query does not guarantee this (occurrences can arise spanning the
boundary between copied text and an inserted replacement). -/
theorem C5_theorem (L Q R : List Char) (ic : Bool)
    (h : line_matches Q ic (replace_all_matches L Q R ic) = false) :
    replace_all_matches (replace_all_matches L Q R ic) Q R ic
      = replace_all_matches L Q R ic :=
  replace_all_matches_of_no_match _ Q R ic h

/-- C5 witness: a concrete instance where the residual-occurrence
condition holds and re-substitution is a no-op. -/
theorem C5_witness :
    line_matches (strL "b") false
        (replace_all_matches (strL "ab") (strL "b") (strL "c") false) = false
    ∧ replace_all_matches (replace_all_matches (strL "ab") (strL "b") (strL "c") false)
        (strL "b") (strL "c") false
      = replace_all_matches (strL "ab") (strL "b") (strL "c") false :=
  ⟨by decide, C5_theorem (strL "ab") (strL "b") (strL "c") false (by decide)⟩

/-- C6 counterexample: an argument list supplying ALL THREE source modes
(`--all`, a file path, and `--url`) is accepted by `Config::build`, not
rejected: only the zero-source case is an error. -/
theorem C6_counterexample :
    (Config.build false [strL "prog", strL "q", strL "--all", strL "f.txt",
        strL "--url", strL "u"]).toOption
      = some ⟨strL "q", strL "f.txt", false, false, some (strL "u"), 0, true⟩ := by decide

/-- C6 (amended): `Config::build` errors exactly when the query argument
is missing or when NO source mode is resolvable (no `--all`, empty file
path, no URL); supplying several source modes at once is accepted. -/
theorem C6_theorem (envIC : Bool) (argv : List (List Char)) :
    (Config.build envIC argv).isOk = true ↔
      (argv.drop 1 ≠ [] ∧
        ((buildLoop (argv.drop 2) ⟨[], none, envIC, false, 0, false⟩).search_all = true
         ∨ (buildLoop (argv.drop 2) ⟨[], none, envIC, false, 0, false⟩).file_path ≠ []
         ∨ (buildLoop (argv.drop 2) ⟨[], none, envIC, false, 0, false⟩).url.isSome = true)) := by
  cases hd : argv.drop 1 with
  | nil => simp [Config.build, hd, Except.isOk, Except.toBool]
  | cons q rest =>
    have hd2 : argv.drop 2 = rest := by
      rw [show argv.drop 2 = (argv.drop 1).drop 1 from (List.drop_drop 1 1 argv).symm, hd]
      rfl
    simp only [Config.build, hd, hd2]
    set st := buildLoop rest ⟨[], none, envIC, false, 0, false⟩ with hst
    by_cases hall : st.search_all
    · simp [hall, Except.isOk, Except.toBool]
    · by_cases hfp : st.file_path = []
      · cases hu : st.url with
        | none => simp [hall, hfp, hu, Except.isOk, Except.toBool]
        | some u => simp [hall, hfp, hu, Except.isOk, Except.toBool]
      · simp [hall, hfp, List.isEmpty_iff, Except.isOk, Except.toBool]

/-- C9: highlighting query `"FOO"` case-insensitively in
`"foo bar Foo"` wraps both occurrences in the markers and preserves the
original casings `"foo"` and `"Foo"` inside them; stripping the markers
recovers the original bytes, so folding touched only the comparison. -/
theorem C9_theorem :
    highlight_all_matches (strL "foo bar Foo") (strL "FOO") true
      = startMarker ++ strL "foo" ++ endMarker ++ strL " bar "
        ++ startMarker ++ strL "Foo" ++ endMarker
    ∧ stripMarkers (highlight_all_matches (strL "foo bar Foo") (strL "FOO") true)
      = strL "foo bar Foo" := by decide

/-- C4: with more matches than the render cap, the display pass emits
exactly `maxLines` (1000) rendered match blocks (separators), its final
event is the truncation notice, matches beyond the cap are never examined
for display (the events equal those of the first 1000 matches alone), and
the replacement pass still iterates every match of the full sequence
(here: one prompt per match when the operator never answers `all` or
`quit`). -/
theorem C4_theorem (ms : List (Nat × List Char)) (ctx total : Nat)
    (q : List Char) (ic : Bool) (oracle : Nat → List Char) (st0 : ReplState)
    (hlen : maxLines < ms.length)
    (hor : ∀ k, trimS (oracle k) ≠ strL "all" ∧ trimS (oracle k) ≠ strL "quit")
    (hp0 : st0.prompts = 0) :
    (displayEvents (ms.map Prod.fst) ctx total).count OutEvent.sep = maxLines
    ∧ (displayEvents (ms.map Prod.fst) ctx total).getLast? = some OutEvent.trunc
    ∧ displayEvents (ms.map Prod.fst) ctx total
        = displayEvents ((ms.take maxLines).map Prod.fst) ctx total
    ∧ (replLoop q ic oracle ms false st0).prompts = ms.length := by
  have hml : (0 : Nat) < maxLines := by norm_num [maxLines]
  refine ⟨?_, ?_, ?_, ?_⟩
  · rw [displayEvents, dispLoop_sep_count ctx total _ _ 0 hml]
    simp only [Nat.sub_zero, List.length_map]
    omega
  · rw [displayEvents]
    apply dispLoop_getLast ctx total _ _ 0 hml
    simp only [List.length_map]
    omega
  · rw [displayEvents, displayEvents, dispLoop_take ctx total _ _ 0 hml,
      Nat.sub_zero, List.map_take]
  · rw [replLoop_prompts q ic oracle hor ms st0, hp0, Nat.zero_add]

/-- C4 witness: 1001 matches (more than the cap of 1000), an operator who
always answers `"n"`, and the resulting full iteration of the replace
loop. -/
theorem C4_witness :
    maxLines < ((List.range 1001).map (fun i => (i, [('m' : Char)]))).length
    ∧ (replLoop [('m' : Char)] false (fun _ => strL "n")
          ((List.range 1001).map (fun i => (i, [('m' : Char)]))) false
          ⟨[], false, 0⟩).prompts
      = ((List.range 1001).map (fun i => (i, [('m' : Char)]))).length :=
  ⟨by simp [maxLines],
    (C4_theorem ((List.range 1001).map (fun i => (i, [('m' : Char)]))) 0 1001
      [('m' : Char)] false (fun _ => strL "n") ⟨[], false, 0⟩
      (by simp [maxLines])
      (fun k => ⟨(by decide : trimS (strL "n") ≠ strL "all"),
        (by decide : trimS (strL "n") ≠ strL "quit")⟩) rfl).2.2.2⟩

/-- C7: requesting replacement on a URL-fetched document emits the
unsupported-replacement warning, reads no prompt, writes nothing, and the
display pass is exactly the one of a session without replacement. -/
theorem C7_theorem (contents : List Char) (c : Config) (oracle : Nat → List Char)
    (hr : c.replace = true) (hu : c.url.isSome = true) :
    (search_contents contents c oracle).warning = true
    ∧ (search_contents contents c oracle).prompts = 0
    ∧ (search_contents contents c oracle).written = none
    ∧ (search_contents contents c oracle).display
        = (search_contents contents { c with replace := false } oracle).display := by
  simp [search_contents, hr, hu]

/-- C7 witness: a concrete replacement request against a URL source. -/
theorem C7_witness :
    (Config.mk (strL "h") [] false true (some (strL "u")) 0 false).replace = true
    ∧ (Config.mk (strL "h") [] false true (some (strL "u")) 0 false).url.isSome = true
    ∧ (search_contents (strL "hello")
        (Config.mk (strL "h") [] false true (some (strL "u")) 0 false)
        (fun _ => [])).warning = true
    ∧ (search_contents (strL "hello")
        (Config.mk (strL "h") [] false true (some (strL "u")) 0 false)
        (fun _ => [])).written = none :=
  ⟨rfl, rfl,
    (C7_theorem (strL "hello")
      (Config.mk (strL "h") [] false true (some (strL "u")) 0 false)
      (fun _ => []) rfl rfl).1,
    (C7_theorem (strL "hello")
      (Config.mk (strL "h") [] false true (some (strL "u")) 0 false)
      (fun _ => []) rfl rfl).2.2.1⟩

/-- C8: in the interactive replace loop, an input whose trimmed form is
none of the four recognized decisions acts exactly like skip-this: the
lines are untouched, no flag changes, the loop moves to the next match
having consumed one prompt, and no error state exists. -/
theorem C8_theorem (q : List Char) (ic : Bool) (oracle : Nat → List Char)
    (i : Nat) (l : List Char) (rest : List (Nat × List Char)) (st : ReplState)
    (h1 : trimS (oracle st.prompts) ≠ strL "y")
    (h2 : trimS (oracle st.prompts) ≠ strL "all")
    (h3 : trimS (oracle st.prompts) ≠ strL "n")
    (h4 : trimS (oracle st.prompts) ≠ strL "quit") :
    replLoop q ic oracle ((i, l) :: rest) false st
      = replLoop q ic oracle rest false { st with prompts := st.prompts + 1 } := by
  simp only [replLoop, Bool.false_eq_true, if_false]
  rw [if_neg h1, if_neg h2, if_neg h3, if_neg h4]

/-- C8 witness: the unrecognized input `"maybe"` skips one match. -/
theorem C8_witness :
    trimS ((fun _ => strL "maybe") 0) ≠ strL "y"
    ∧ replLoop (strL "a") false (fun _ => strL "maybe")
        [(0, strL "a")] false ⟨[strL "a"], false, 0⟩
      = replLoop (strL "a") false (fun _ => strL "maybe")
        [] false ⟨[strL "a"], false, 0 + 1⟩ :=
  ⟨by decide,
    C8_theorem (strL "a") false (fun _ => strL "maybe") 0 (strL "a") []
      ⟨[strL "a"], false, 0⟩ (by decide) (by decide) (by decide) (by decide)⟩

/-- C10: whenever a replacement session writes, the persisted content is
exactly the final in-memory lines joined with `"\n"` and nothing else;
concretely, splitting `"a\r\nb\n"` yields lines `["a","b"]`, a `y`-answer
session on query `"a"` writes `"<REPLACED>\nb"`, and re-joining the split
lines of the original does not reproduce the original (the `"\r\n"`
separator became `"\n"` and the trailing newline is gone), so a write can
change the file outside the replaced lines. -/
theorem C10_theorem :
    (∀ (contents : List Char) (c : Config) (oracle : Nat → List Char) (w : List Char),
      c.replace = true → c.url = none →
      (search_contents contents c oracle).written = some w →
      w = List.intercalate ['\n']
            (replLoop c.query c.ignore_case oracle
              (findMatches c.query c.ignore_case (rustLines contents)) false
              ⟨rustLines contents, false, 0⟩).lines)
    ∧ rustLines (strL "a\r\nb\n") = [strL "a", strL "b"]
    ∧ (search_contents (strL "a\r\nb\n")
          (Config.mk (strL "a") (strL "f.txt") false true none 0 false)
          (fun _ => strL "y")).written = some (strL "<REPLACED>\nb")
    ∧ List.intercalate ['\n'] (rustLines (strL "a\r\nb\n")) ≠ strL "a\r\nb\n" := by
  refine ⟨?_, by decide, by decide, by decide⟩
  intro contents c oracle w hr hu hw
  by_cases hc : (replLoop c.query c.ignore_case oracle
      (findMatches c.query c.ignore_case (rustLines contents)) false
      ⟨rustLines contents, false, 0⟩).changed
  · simp [search_contents, hr, hu, hc] at hw
    exact hw.symm
  · simp [search_contents, hr, hu, hc] at hw

/-- C10 witness: the concrete session of the theorem's scenario, with the
written bytes equal to the joined final lines. -/
theorem C10_witness :
    (Config.mk (strL "a") (strL "f.txt") false true none 0 false).replace = true
    ∧ (search_contents (strL "a\r\nb\n")
          (Config.mk (strL "a") (strL "f.txt") false true none 0 false)
          (fun _ => strL "y")).written = some (strL "<REPLACED>\nb")
    ∧ strL "<REPLACED>\nb"
        = List.intercalate ['\n']
            (replLoop (strL "a") false (fun _ => strL "y")
              (findMatches (strL "a") false (rustLines (strL "a\r\nb\n"))) false
              ⟨rustLines (strL "a\r\nb\n"), false, 0⟩).lines :=
  ⟨rfl, by decide,
    C10_theorem.1 (strL "a\r\nb\n")
      (Config.mk (strL "a") (strL "f.txt") false true none 0 false)
      (fun _ => strL "y") (strL "<REPLACED>\nb") rfl rfl (by decide)⟩
